import Mathlib

/-!
Verification of the core algorithms of the `wpilib_mcp` documentation-search
server against its natural-language specification.

The development shallowly embeds the Python sources:

* `src/wpilib_mcp/utils/search.py`  — BM25 search index, tokenizer, merger
* `src/wpilib_mcp/utils/fetch.py`   — TTL cache with oldest-first eviction
* `src/wpilib_mcp/utils/indexer.py` — bounded recursive crawler
* `src/wpilib_mcp/utils/html.py`    — title extraction and previews

Modelling conventions:

* Python `float` scores are used only in comparisons (`score > 0`,
  `__lt__`, sorting, TTL arithmetic), never in arithmetic whose rounding
  could be observed, so scores and timestamps are embedded as `ℚ`.
* `list.sort()` is Python's stable sort with respect to `__lt__`.  The
  stable sort of a list under a total preorder is unique, so it is
  embedded as `List.insertionSort`, which is stable and computes by `rfl`.
* The third-party `rank_bm25.BM25Okapi` scorer is external to the
  repository; it is embedded as an abstract scoring function
  `List String → List ℚ` (one score per indexed document, which is the
  documented shape of `get_scores`).
* Python `str` is embedded as `String`/`List Char`; the regular-expression
  character classes `[a-z]`, `[A-Z]`, `\w`, `\s` are embedded at their
  ASCII meaning, which is exact on ASCII inputs.
* `max_results` is an `int` documented and used as a nonnegative count; it
  is embedded as `Nat`.
-/

/-- Python `\s` (and `str.split()` / `str.strip()` whitespace) at its ASCII
meaning: space, tab, newline, carriage return, form feed, vertical tab. -/
def pyIsSpace (c : Char) : Bool :=
  c = ' ' || c = '\t' || c = '\n' || c = '\r' || c = '\x0b' || c = '\x0c'

/-- Python `\w` at its ASCII meaning: alphanumeric or underscore. -/
def pyIsWordChar (c : Char) : Bool :=
  c.isAlphanum || c = '_'

/-- Python `str.strip()` on a character list: drop leading and trailing
whitespace. -/
def pyStrip (l : List Char) : List Char :=
  ((l.dropWhile pyIsSpace).reverse.dropWhile pyIsSpace).reverse

/-- Python `str.strip()` on strings. -/
def pyStripStr (s : String) : String :=
  String.mk (pyStrip s.data)

/-- Embedding of `re.sub(r"([a-z])([A-Z])", r"\1 \2", text)` from
`BM25SearchIndex.tokenize`: insert a space between a lowercase letter and
an immediately following uppercase letter. -/
def splitCamelLU : List Char → List Char
  | [] => []
  | [c] => [c]
  | a :: b :: rest =>
    if a.isLower && b.isUpper then a :: ' ' :: splitCamelLU (b :: rest)
    else a :: splitCamelLU (b :: rest)

/-- Embedding of `re.sub(r"([A-Z]+)([A-Z][a-z])", r"\1 \2", text)` from
`BM25SearchIndex.tokenize`: inside a run of uppercase letters followed by a
lowercase letter, insert a space before the last uppercase letter.  At the
character level this inserts a space between `a` and `b` exactly when
`a`, `b` are uppercase and the next character is lowercase, which is the
effect of the left-to-right, greedy regex substitution. -/
def splitCamelUUL : List Char → List Char
  | a :: b :: c :: rest =>
    if a.isUpper && b.isUpper && c.isLower then a :: ' ' :: splitCamelUUL (b :: c :: rest)
    else a :: splitCamelUUL (b :: c :: rest)
  | l => l

/-- The `BM25SearchIndex.STOP_WORDS` set (a Python set literal, used only
for membership tests). -/
def STOP_WORDS : List String :=
  ["the", "a", "an", "and", "or", "but", "in", "on", "at", "to", "for",
   "of", "with", "by", "from", "as", "is", "was", "are", "were", "been",
   "be", "have", "has", "had", "do", "does", "did", "will", "would",
   "could", "should", "may", "might", "must", "shall", "can", "need",
   "this", "that", "these", "those", "it", "its", "you", "your", "we",
   "our", "they", "their", "he", "she", "him", "her", "his", "hers"]

/-- Embedding of `BM25SearchIndex.tokenize`.  The instance only reads the
`remove_stop_words` flag, so that flag is the first argument.  Python's
`text.split()` splits on whitespace runs and drops empty pieces, embedded
as `splitOnP` followed by dropping empties. -/
def tokenize (remove_stop_words : Bool) (text : String) : List String :=
  let cs := splitCamelUUL (splitCamelLU text.data)
  let cs := cs.map Char.toLower
  let cs := cs.map fun c => if c = '_' || c = '-' then ' ' else c
  let cs := cs.map fun c => if pyIsWordChar c || pyIsSpace c then c else ' '
  let tokens := ((cs.splitOnP pyIsSpace).filter fun w => !w.isEmpty).map String.mk
  if remove_stop_words then
    tokens.filter fun t => !(STOP_WORDS.contains t) && decide (1 < t.length)
  else
    tokens.filter fun t => decide (1 < t.length)

/-- Embedding of the `ScoredResult` dataclass of `search.py`; the `float`
score is embedded as `ℚ` (it is only ever compared, never computed with). -/
structure ScoredResult (T : Type) where
  item : T
  score : ℚ
deriving DecidableEq

/-- Ordering used by `list.sort()` on `ScoredResult`s: `__lt__` is
`self.score > other.score`, so in the stably sorted output every earlier
element has a score at least as large as every later one.  `scoreOrder a b`
says `a` may come before `b`. -/
def scoreOrder {T : Type} (a b : ScoredResult T) : Prop :=
  b.score ≤ a.score

instance {T : Type} : DecidableRel (scoreOrder (T := T)) :=
  fun a b => inferInstanceAs (Decidable (b.score ≤ a.score))

instance {T : Type} : IsTotal (ScoredResult T) scoreOrder :=
  ⟨fun a b => le_total b.score a.score⟩

instance {T : Type} : IsTrans (ScoredResult T) scoreOrder :=
  ⟨fun _ _ _ hab hbc => le_trans hbc hab⟩

/-- Embedding of `list.sort()` on result lists: the stable sort with
respect to `ScoredResult.__lt__`. -/
def pySortResults {T : Type} (l : List (ScoredResult T)) : List (ScoredResult T) :=
  l.insertionSort scoreOrder

/-- Embedding of the mutable state of a `BM25SearchIndex` instance.  The
`_bm25` field holds the `BM25Okapi` object, embedded as its only used
capability: `get_scores`, a function from query tokens to one score per
corpus document. -/
structure BM25SearchIndex (T : Type) where
  remove_stop_words : Bool
  items : List T
  corpus : List (List String)
  bm25 : Option (List String → List ℚ)

/-- Embedding of `BM25SearchIndex.build`.  `mkOkapi` stands for the
`BM25Okapi` constructor of the external `rank_bm25` library. -/
def BM25SearchIndex.build {T : Type} (idx : BM25SearchIndex T)
    (mkOkapi : List (List String) → List String → List ℚ)
    (items : List T) (text_extractor : T → String) : BM25SearchIndex T :=
  let corpus := items.map fun it => tokenize idx.remove_stop_words (text_extractor it)
  { idx with
    items := items
    corpus := corpus
    bm25 := if corpus.isEmpty then none else some (mkOkapi corpus) }

/-- Embedding of the result-collection loop of `BM25SearchIndex.search`:
`for i, score in enumerate(scores): if score > 0: append(...)`, where
`scores` has one entry per indexed item. -/
def collectPositive {T : Type} (items : List T) (scores : List ℚ) :
    List (ScoredResult T) :=
  (items.zip scores).filterMap fun p =>
    if 0 < p.2 then some ⟨p.1, p.2⟩ else none

/-- Embedding of `BM25SearchIndex.search`. -/
def BM25SearchIndex.search {T : Type} (idx : BM25SearchIndex T)
    (query : String) (max_results : Nat) : List (ScoredResult T) :=
  match idx.bm25 with
  | none => []
  | some get_scores =>
    if idx.items.isEmpty then []
    else
      let query_tokens := tokenize idx.remove_stop_words query
      if query_tokens.isEmpty then []
      else
        let scores := get_scores query_tokens
        let results := collectPositive idx.items scores
        (pySortResults results).take max_results

/-- Embedding of the result-collection loop of `search_with_filter`:
`if score > 0 and filter_fn(self._items[i])`. -/
def collectPositiveFiltered {T : Type} (filter_fn : T → Bool)
    (items : List T) (scores : List ℚ) : List (ScoredResult T) :=
  (items.zip scores).filterMap fun p =>
    if 0 < p.2 ∧ filter_fn p.1 = true then some ⟨p.1, p.2⟩ else none

/-- Embedding of `BM25SearchIndex.search_with_filter`. -/
def BM25SearchIndex.search_with_filter {T : Type} (idx : BM25SearchIndex T)
    (query : String) (filter_fn : T → Bool) (max_results : Nat) :
    List (ScoredResult T) :=
  match idx.bm25 with
  | none => []
  | some get_scores =>
    if idx.items.isEmpty then []
    else
      let query_tokens := tokenize idx.remove_stop_words query
      if query_tokens.isEmpty then []
      else
        let scores := get_scores query_tokens
        let results := collectPositiveFiltered filter_fn idx.items scores
        (pySortResults results).take max_results

/-- Embedding of the `size` property. -/
def BM25SearchIndex.size {T : Type} (idx : BM25SearchIndex T) : Nat :=
  idx.items.length

/-- Embedding of the `is_built` property. -/
def BM25SearchIndex.is_built {T : Type} (idx : BM25SearchIndex T) : Bool :=
  idx.bm25.isSome

/-- Embedding of `merge_search_results`: flatten (`extend` in a loop),
stably sort by descending score, truncate. -/
def merge_search_results {T : Type} (result_lists : List (List (ScoredResult T)))
    (max_results : Nat) : List (ScoredResult T) :=
  let all_results := result_lists.foldl (fun acc rs => acc ++ rs) []
  (pySortResults all_results).take max_results

/-- State-passing embedding of `BM25SearchIndex.search`: the method body
contains no assignment to any field of `self`, so each `return` site
yields the unchanged instance together with the computed result list. -/
def BM25SearchIndex.searchSt {T : Type} (idx : BM25SearchIndex T)
    (query : String) (max_results : Nat) :
    BM25SearchIndex T × List (ScoredResult T) :=
  match idx.bm25 with
  | none => (idx, [])
  | some get_scores =>
    if idx.items.isEmpty then (idx, [])
    else
      let query_tokens := tokenize idx.remove_stop_words query
      if query_tokens.isEmpty then (idx, [])
      else
        let scores := get_scores query_tokens
        let results := collectPositive idx.items scores
        (idx, (pySortResults results).take max_results)

/-- State-passing embedding of `BM25SearchIndex.search_with_filter`; as for
`search`, the body never assigns to `self`. -/
def BM25SearchIndex.search_with_filterSt {T : Type} (idx : BM25SearchIndex T)
    (query : String) (filter_fn : T → Bool) (max_results : Nat) :
    BM25SearchIndex T × List (ScoredResult T) :=
  match idx.bm25 with
  | none => (idx, [])
  | some get_scores =>
    if idx.items.isEmpty then (idx, [])
    else
      let query_tokens := tokenize idx.remove_stop_words query
      if query_tokens.isEmpty then (idx, [])
      else
        let scores := get_scores query_tokens
        let results := collectPositiveFiltered filter_fn idx.items scores
        (idx, (pySortResults results).take max_results)

lemma score_pos_of_mem_collectPositive {T : Type} {items : List T} {scores : List ℚ}
    {r : ScoredResult T} (h : r ∈ collectPositive items scores) : 0 < r.score := by
  simp only [collectPositive, List.mem_filterMap] at h
  obtain ⟨p, -, hp⟩ := h
  split at hp
  · cases hp
    assumption
  · cases hp

lemma mem_take_pySort {T : Type} {l : List (ScoredResult T)} {k : Nat}
    {r : ScoredResult T} (h : r ∈ (pySortResults l).take k) : r ∈ l :=
  ((List.perm_insertionSort scoreOrder l).mem_iff).mp (List.mem_of_mem_take h)

lemma pairwise_take_pySort {T : Type} (l : List (ScoredResult T)) (k : Nat) :
    ((pySortResults l).take k).Pairwise scoreOrder :=
  List.Pairwise.sublist (List.take_sublist k _) (List.sorted_insertionSort scoreOrder l)

lemma length_take_pySort_le {T : Type} (l : List (ScoredResult T)) (k : Nat) :
    ((pySortResults l).take k).length ≤ k := by
  simp [List.length_take]

/-- C1: for every index and query, `search` on an unbuilt index (and
`build` on an empty item set leaves the index unbuilt) or on a query with
no tokens returns `[]`; otherwise every returned result has strictly
positive score, results are pairwise sorted by descending score, and at
most `max_results` results are returned.  Totality of the embedding
reflects that the code path raises no exception. -/
theorem search_contract {T : Type} (idx : BM25SearchIndex T) (q : String) (k : Nat) :
    ((idx.bm25 = none ∨ tokenize idx.remove_stop_words q = []) → idx.search q k = []) ∧
    (∀ (mkOkapi : List (List String) → List String → List ℚ) (ex : T → String),
      (idx.build mkOkapi [] ex).bm25 = none) ∧
    (∀ r ∈ idx.search q k, 0 < r.score) ∧
    (idx.search q k).Pairwise scoreOrder ∧
    (idx.search q k).length ≤ k := by
  refine ⟨?_, fun mkOkapi ex => rfl, ?_, ?_, ?_⟩
  · rintro (hb | ht)
    · simp [BM25SearchIndex.search, hb]
    · cases hb : idx.bm25 with
      | none => simp [BM25SearchIndex.search, hb]
      | some g =>
        by_cases hi : idx.items.isEmpty <;>
          simp [BM25SearchIndex.search, hb, hi, ht]
  · intro r hr
    cases hb : idx.bm25 with
    | none => simp [BM25SearchIndex.search, hb] at hr
    | some g =>
      simp only [BM25SearchIndex.search, hb] at hr
      split at hr
      · cases hr
      · split at hr
        · cases hr
        · exact score_pos_of_mem_collectPositive (mem_take_pySort hr)
  · cases hb : idx.bm25 with
    | none => simp [BM25SearchIndex.search, hb]
    | some g =>
      simp only [BM25SearchIndex.search, hb]
      split
      · simp
      · split
        · simp
        · exact pairwise_take_pySort _ _
  · cases hb : idx.bm25 with
    | none => simp [BM25SearchIndex.search, hb]
    | some g =>
      simp only [BM25SearchIndex.search, hb]
      split
      · simp
      · split
        · simp
        · exact length_take_pySort_le _ _

/-- Witness for `search_contract` at a concrete two-document index. -/
theorem search_contract_witness :
    BM25SearchIndex.search (T := Nat) ⟨true, [], [], none⟩ "motor" 5 = [] ∧
    (0 : ℚ) < (ScoredResult.mk 20 2).score ∧
    (BM25SearchIndex.search (T := Nat)
      ⟨true, [10, 20], [["motor"], ["robot"]], some fun _ => [1, 2]⟩ "motor" 10).length ≤ 10 := by
  refine ⟨(search_contract ⟨true, [], [], none⟩ "motor" 5).1 (Or.inl rfl), ?_, ?_⟩
  · exact (search_contract (T := Nat)
      ⟨true, [10, 20], [["motor"], ["robot"]], some fun _ => [1, 2]⟩ "motor" 10).2.2.1
      ⟨20, 2⟩ (by decide)
  · exact (search_contract (T := Nat)
      ⟨true, [10, 20], [["motor"], ["robot"]], some fun _ => [1, 2]⟩ "motor" 10).2.2.2.2

lemma foldl_append_eq_flatten {α : Type} (lists : List (List α)) (acc : List α) :
    lists.foldl (fun a rs => a ++ rs) acc = acc ++ lists.flatten := by
  induction lists generalizing acc with
  | nil => simp
  | cons l ls ih => simp [ih, List.append_assoc]

/-- C2: `merge_search_results` is the truncation to `max_results` of the
stable descending sort of the concatenation of the input lists; it is
pairwise sorted by non-increasing score, has length
`min max_results (total item count)`, and equal-score pairs keep the
relative order they had in the flattened input. -/
theorem merge_search_results_spec {T : Type}
    (lists : List (List (ScoredResult T))) (k : Nat) :
    merge_search_results lists k = (pySortResults lists.flatten).take k ∧
    (merge_search_results lists k).Pairwise scoreOrder ∧
    (merge_search_results lists k).length = min k ((lists.map List.length).sum) ∧
    (∀ a b : ScoredResult T, a.score = b.score → [a, b].Sublist lists.flatten →
      [a, b].Sublist (pySortResults lists.flatten)) := by
  have hflat : merge_search_results lists k = (pySortResults lists.flatten).take k := by
    simp [merge_search_results, foldl_append_eq_flatten]
  refine ⟨hflat, ?_, ?_, ?_⟩
  · rw [hflat]
    exact pairwise_take_pySort _ _
  · rw [hflat]
    simp [List.length_take, pySortResults, List.length_insertionSort, List.length_flatten]
  · intro a b hscore hsub
    exact List.pair_sublist_insertionSort (le_of_eq hscore.symm) hsub

/-- Witness for `merge_search_results_spec`: two ranked lists with an
equal-score pair across sources. -/
theorem merge_search_results_spec_witness :
    [ScoredResult.mk 2 (5 : ℚ), ScoredResult.mk 4 (5 : ℚ)].Sublist
      (pySortResults (T := Nat)
        [[⟨1, 9⟩, ⟨2, 5⟩], [⟨3, 7⟩, ⟨4, 5⟩]].flatten) := by
  exact (merge_search_results_spec (T := Nat)
      [[⟨1, 9⟩, ⟨2, 5⟩], [⟨3, 7⟩, ⟨4, 5⟩]] 3).2.2.2
    ⟨2, 5⟩ ⟨4, 5⟩ rfl (by decide)

/-- C5: every result returned by `search_with_filter` satisfies the
predicate on the original item; an item rejected by the predicate is never
returned, whatever its score. -/
theorem search_with_filter_only_matching {T : Type} (idx : BM25SearchIndex T)
    (q : String) (filter_fn : T → Bool) (k : Nat) :
    ∀ r ∈ idx.search_with_filter q filter_fn k, filter_fn r.item = true := by
  intro r hr
  cases hb : idx.bm25 with
  | none => simp [BM25SearchIndex.search_with_filter, hb] at hr
  | some g =>
    simp only [BM25SearchIndex.search_with_filter, hb] at hr
    split at hr
    · cases hr
    · split at hr
      · cases hr
      · have hmem := mem_take_pySort hr
        simp only [collectPositiveFiltered, List.mem_filterMap] at hmem
        obtain ⟨p, -, hp⟩ := hmem
        by_cases hc : 0 < p.2 ∧ filter_fn p.1 = true
        · rw [if_pos hc] at hp
          cases hp
          exact hc.2
        · rw [if_neg hc] at hp
          cases hp

/-- Witness for `search_with_filter_only_matching`: a Java-tagged document
is returned and a rejected one is not. -/
theorem search_with_filter_only_matching_witness :
    (fun n : Nat => n == 20) 20 = true := by
  exact search_with_filter_only_matching (T := Nat)
    ⟨true, [10, 20], [["motor"], ["motor"]], some fun _ => [3, 2]⟩
    "motor" (fun n => n == 20) 10 ⟨20, 2⟩ (by decide)

lemma length_of_mem_tokenize (b : Bool) (s t : String) (ht : t ∈ tokenize b s) :
    1 < t.length := by
  unfold tokenize at ht
  split at ht
  · rw [List.mem_filter] at ht
    have hp := ht.2
    simp only [Bool.and_eq_true, decide_eq_true_eq] at hp
    exact hp.2
  · rw [List.mem_filter] at ht
    have hp := ht.2
    simpa using hp

lemma not_stop_of_mem_tokenize (s t : String) (ht : t ∈ tokenize true s) :
    t ∉ STOP_WORDS := by
  unfold tokenize at ht
  split at ht
  · rw [List.mem_filter] at ht
    have hp := ht.2
    simp only [Bool.and_eq_true, Bool.not_eq_true'] at hp
    simpa using hp.1
  · simp at *

/-- C6: the tokenizer splits camel-case compounds before lowercasing, so
both `getMotorPosition` and `get_motor_position` tokenize to `get`,
`motor`, `position` (in either stop-word mode); and for every input no
returned token has length at most one and, with stop-word removal enabled,
no returned token is a stop word. -/
theorem tokenize_spec :
    (∀ b : Bool, "get" ∈ tokenize b "getMotorPosition" ∧
      "motor" ∈ tokenize b "getMotorPosition" ∧
      "position" ∈ tokenize b "getMotorPosition") ∧
    (∀ b : Bool, "get" ∈ tokenize b "get_motor_position" ∧
      "motor" ∈ tokenize b "get_motor_position" ∧
      "position" ∈ tokenize b "get_motor_position") ∧
    (∀ (b : Bool) (s t : String), t ∈ tokenize b s → 1 < t.length) ∧
    (∀ s t : String, t ∈ tokenize true s → t ∉ STOP_WORDS) := by
  exact ⟨fun b => by cases b <;> exact (by decide),
    fun b => by cases b <;> exact (by decide),
    length_of_mem_tokenize, not_stop_of_mem_tokenize⟩

/-- Witness for `tokenize_spec` on the token `motor` of
`getMotorPosition`. -/
theorem tokenize_spec_witness :
    1 < ("motor" : String).length ∧ ("motor" : String) ∉ STOP_WORDS :=
  ⟨tokenize_spec.2.2.1 true "getMotorPosition" "motor" (by decide),
   tokenize_spec.2.2.2 "getMotorPosition" "motor" (by decide)⟩

/-- C10: `search` and `search_with_filter` never mutate the index: the
state-passing embeddings return the stored items, corpus and BM25 object
unchanged, hence `size` and `is_built` are unchanged, and the result lists
agree with the pure functions; only `build` replaces the stored state. -/
theorem search_frame {T : Type} (idx : BM25SearchIndex T) (q : String)
    (filter_fn : T → Bool) (k : Nat) :
    ((idx.searchSt q k).1.items = idx.items ∧
      (idx.searchSt q k).1.corpus = idx.corpus ∧
      (idx.searchSt q k).1.bm25 = idx.bm25 ∧
      (idx.searchSt q k).1.size = idx.size ∧
      (idx.searchSt q k).1.is_built = idx.is_built ∧
      (idx.searchSt q k).2 = idx.search q k) ∧
    ((idx.search_with_filterSt q filter_fn k).1.items = idx.items ∧
      (idx.search_with_filterSt q filter_fn k).1.corpus = idx.corpus ∧
      (idx.search_with_filterSt q filter_fn k).1.bm25 = idx.bm25 ∧
      (idx.search_with_filterSt q filter_fn k).1.size = idx.size ∧
      (idx.search_with_filterSt q filter_fn k).1.is_built = idx.is_built ∧
      (idx.search_with_filterSt q filter_fn k).2 = idx.search_with_filter q filter_fn k) := by
  have hs : (idx.searchSt q k).1 = idx ∧ (idx.searchSt q k).2 = idx.search q k := by
    cases hb : idx.bm25 with
    | none => simp [BM25SearchIndex.searchSt, BM25SearchIndex.search, hb]
    | some g =>
      by_cases h1 : idx.items.isEmpty <;>
        by_cases h2 : (tokenize idx.remove_stop_words q).isEmpty <;>
          simp [BM25SearchIndex.searchSt, BM25SearchIndex.search, hb, h1, h2]
  have hf : (idx.search_with_filterSt q filter_fn k).1 = idx ∧
      (idx.search_with_filterSt q filter_fn k).2 = idx.search_with_filter q filter_fn k := by
    cases hb : idx.bm25 with
    | none =>
      simp [BM25SearchIndex.search_with_filterSt, BM25SearchIndex.search_with_filter, hb]
    | some g =>
      by_cases h1 : idx.items.isEmpty <;>
        by_cases h2 : (tokenize idx.remove_stop_words q).isEmpty <;>
          simp [BM25SearchIndex.search_with_filterSt, BM25SearchIndex.search_with_filter,
            hb, h1, h2]
  exact ⟨⟨by rw [hs.1], by rw [hs.1], by rw [hs.1], by rw [hs.1], by rw [hs.1], hs.2⟩,
    ⟨by rw [hf.1], by rw [hf.1], by rw [hf.1], by rw [hf.1], by rw [hf.1], hf.2⟩⟩

/-- Embedding of the `CacheEntry` dataclass of `fetch.py`; the `float`
timestamp is only compared and subtracted from `now`, so it is embedded
as `ℚ`. -/
structure CacheEntry where
  content : String
  timestamp : ℚ
  headers : List (String × String)
deriving DecidableEq

/-- Embedding of the state of an `HttpFetcher`.  The `_cache` dict is a
Python `dict`, i.e. an insertion-ordered map with unique keys, embedded as
an association list in insertion order.  `_get_cache_key` is a
sha256-derived hash of the URL (an external library call), embedded as the
abstract key function `keyOf`. -/
structure HttpFetcher where
  cache_ttl : ℚ
  max_cache_size : Nat
  keyOf : String → String
  cache : List (String × CacheEntry)

/-- Embedding of `HttpFetcher._is_cache_valid`. -/
def HttpFetcher.is_cache_valid (f : HttpFetcher) (now : ℚ) (entry : CacheEntry) : Bool :=
  decide (now - entry.timestamp < f.cache_ttl)

/-- Python `cache_key in self._cache` / `self._cache[cache_key]` on the
insertion-ordered store. -/
def dictFind (c : List (String × CacheEntry)) (k : String) : Option CacheEntry :=
  (c.find? fun p => decide (p.1 = k)).map Prod.snd

/-- Python `self._cache[cache_key] = entry`: replace in place if the key
is present (a dict update keeps the original position), else append. -/
def dictInsert (c : List (String × CacheEntry)) (k : String) (e : CacheEntry) :
    List (String × CacheEntry) :=
  if c.any fun p => decide (p.1 = k) then
    c.map fun p => if p.1 = k then (k, e) else p
  else c ++ [(k, e)]

/-- Embedding of `HttpFetcher._evict_oldest`: `min` over the keys by entry
timestamp returns the first key attaining the minimum in iteration
(insertion) order, then `del` removes that key. -/
def HttpFetcher.evict_oldest (c : List (String × CacheEntry)) :
    List (String × CacheEntry) :=
  match c.find? (fun p => decide (∀ q ∈ c, p.2.timestamp ≤ q.2.timestamp)) with
  | none => c
  | some victim => c.eraseP fun q => decide (q.1 = victim.1)

/-- Embedding of the cache-lookup block at the top of `HttpFetcher.fetch`:
`if cache_key in self._cache` and the entry is valid, its content. -/
def HttpFetcher.cacheHit (f : HttpFetcher) (url : String) (now : ℚ) : Option String :=
  match dictFind f.cache (f.keyOf url) with
  | some entry => if f.is_cache_valid now entry then some entry.content else none
  | none => none

/-- Embedding of `HttpFetcher.fetch`.  The two `time.time()` reads are the
parameters `now` (validity check) and `nowStore` (timestamp of the stored
entry); `net` is the outcome of the single network attempt (the code
performs exactly one `client.get` per call, with no retry; `raise_for_status`
failures surface as `Except.error`).  The returned `Bool` records whether
the network request was performed. -/
def HttpFetcher.fetch (f : HttpFetcher) (url : String) (use_cache : Bool)
    (now nowStore : ℚ) (net : Except String (String × List (String × String))) :
    Except String String × HttpFetcher × Bool :=
  let cache_key := f.keyOf url
  let hit : Option String := if use_cache then f.cacheHit url now else none
  match hit with
  | some content => (Except.ok content, f, false)
  | none =>
    match net with
    | Except.error e => (Except.error e, f, true)
    | Except.ok (content, headers) =>
      let f' :=
        if use_cache then
          let c :=
            if f.max_cache_size ≤ f.cache.length then HttpFetcher.evict_oldest f.cache
            else f.cache
          { f with cache := dictInsert c cache_key ⟨content, nowStore, headers⟩ }
        else f
      (Except.ok content, f', true)

/-- Embedding of `HttpFetcher.clear_cache`. -/
def HttpFetcher.clear_cache (f : HttpFetcher) : HttpFetcher :=
  { f with cache := [] }

/-- Embedding of `HttpFetcher.invalidate`. -/
def HttpFetcher.invalidate (f : HttpFetcher) (url : String) : HttpFetcher × Bool :=
  let cache_key := f.keyOf url
  if f.cache.any fun p => decide (p.1 = cache_key) then
    ({ f with cache := f.cache.eraseP fun p => decide (p.1 = cache_key) }, true)
  else (f, false)

lemma exists_min_by {α : Type} (f : α → ℚ) :
    ∀ l : List α, l ≠ [] → ∃ a ∈ l, ∀ b ∈ l, f a ≤ f b := by
  intro l
  induction l with
  | nil => intro h; exact absurd rfl h
  | cons a rest ih =>
    intro _
    cases hr : rest with
    | nil => exact ⟨a, List.mem_cons_self a _, by simp⟩
    | cons b rest' =>
      obtain ⟨m, hm, hmin⟩ := ih (by simp [hr])
      rw [hr] at hm hmin
      by_cases hc : f a ≤ f m
      · refine ⟨a, List.mem_cons_self a _, ?_⟩
        intro q hq
        rcases List.mem_cons.mp hq with h | h
        · exact h ▸ le_refl _
        · exact le_trans hc (hmin q (hr ▸ h))
      · refine ⟨m, List.mem_cons_of_mem a (hr ▸ hm), ?_⟩
        intro q hq
        rcases List.mem_cons.mp hq with h | h
        · exact h ▸ le_of_not_le hc
        · exact hmin q (hr ▸ h)

lemma keys_nodup_unique {c : List (String × CacheEntry)}
    (hk : (c.map Prod.fst).Nodup) {p q : String × CacheEntry}
    (hp : p ∈ c) (hq : q ∈ c) (h : p.1 = q.1) : p = q := by
  induction c with
  | nil => cases hp
  | cons a rest ih =>
    rcases List.mem_cons.mp hp with hp1 | hp1 <;> rcases List.mem_cons.mp hq with hq1 | hq1
    · rw [hp1, hq1]
    · exfalso
      have : q.1 ∈ rest.map Prod.fst := List.mem_map.mpr ⟨q, hq1, rfl⟩
      rw [← h, hp1] at this
      exact (List.nodup_cons.mp hk).1 this
    · exfalso
      have : p.1 ∈ rest.map Prod.fst := List.mem_map.mpr ⟨p, hp1, rfl⟩
      rw [h, hq1] at this
      exact (List.nodup_cons.mp hk).1 this
    · exact ih (List.nodup_cons.mp hk).2 hp1 hq1

lemma dictFind_eq_some_of_mem {c : List (String × CacheEntry)}
    (hk : (c.map Prod.fst).Nodup) {p : String × CacheEntry}
    (hp : p ∈ c) : dictFind c p.1 = some p.2 := by
  induction c with
  | nil => cases hp
  | cons a rest ih =>
    rcases List.mem_cons.mp hp with h | h
    · subst h
      simp [dictFind, List.find?]
    · by_cases ha : a.1 = p.1
      · exfalso
        have hap : a = p :=
          keys_nodup_unique hk (List.mem_cons_self a rest) (List.mem_cons_of_mem a h) ha
        have : a.1 ∈ rest.map Prod.fst := List.mem_map.mpr ⟨p, h, by rw [hap]⟩
        exact (List.nodup_cons.mp hk).1 this
      · have := ih (List.nodup_cons.mp hk).2 h
        simpa [dictFind, List.find?, ha] using this

lemma mem_of_dictFind_eq_some {c : List (String × CacheEntry)} {k : String}
    {e : CacheEntry} (h : dictFind c k = some e) : (k, e) ∈ c := by
  simp only [dictFind, Option.map_eq_some'] at h
  obtain ⟨p, hp, he⟩ := h
  have hm := List.mem_of_find?_eq_some hp
  have hkey := List.find?_some hp
  simp only [decide_eq_true_eq] at hkey
  have : p = (k, e) := by
    cases p
    simp_all
  exact this ▸ hm

lemma dictFind_dictInsert_self (c : List (String × CacheEntry)) (k : String)
    (e : CacheEntry) : dictFind (dictInsert c k e) k = some e := by
  by_cases h : c.any fun p => decide (p.1 = k)
  · rw [dictInsert, if_pos h]
    induction c with
    | nil => simp at h
    | cons a rest ih =>
      by_cases ha : a.1 = k
      · simp [dictFind, List.find?, ha]
      · have h' : rest.any fun p => decide (p.1 = k) := by
          simpa [List.any_cons, ha] using h
        have := ih h'
        simpa [dictFind, List.find?, ha] using this
  · rw [dictInsert, if_neg h]
    induction c with
    | nil => simp [dictFind, List.find?]
    | cons a rest ih =>
      have ha : ¬a.1 = k := by
        intro hak
        exact h (by simp [List.any_cons, hak])
      have h' : ¬rest.any fun p => decide (p.1 = k) := by
        intro hr
        exact h (by simp [List.any_cons, hr])
      have := ih h'
      simpa [dictFind, List.find?, ha] using this

lemma mem_dictInsert_of_ne {c : List (String × CacheEntry)} {k : String}
    {e : CacheEntry} {q : String × CacheEntry} (hq : q ∈ c) (hne : q.1 ≠ k) :
    q ∈ dictInsert c k e := by
  rw [dictInsert]
  split
  · refine List.mem_map.mpr ⟨q, hq, ?_⟩
    rw [if_neg hne]
  · exact List.mem_append_left _ hq

lemma fetch_eval_hit (f : HttpFetcher) (url : String) (now now2 : ℚ)
    (net : Except String (String × List (String × String))) (c : String)
    (hhit : f.cacheHit url now = some c) :
    f.fetch url true now now2 net = (Except.ok c, f, false) := by
  simp [HttpFetcher.fetch, hhit]

lemma fetch_eval_miss_error (f : HttpFetcher) (url : String) (now now2 : ℚ) (e : String)
    (hhit : f.cacheHit url now = none) :
    f.fetch url true now now2 (Except.error e) = (Except.error e, f, true) := by
  simp [HttpFetcher.fetch, hhit]

lemma fetch_eval_miss_ok (f : HttpFetcher) (url : String) (now now2 : ℚ)
    (content : String) (headers : List (String × String))
    (hhit : f.cacheHit url now = none) :
    (f.fetch url true now now2 (Except.ok (content, headers))).1 = Except.ok content ∧
    (f.fetch url true now now2 (Except.ok (content, headers))).2.1.cache =
      dictInsert
        (if f.max_cache_size ≤ f.cache.length then HttpFetcher.evict_oldest f.cache
          else f.cache)
        (f.keyOf url) ⟨content, now2, headers⟩ ∧
    (f.fetch url true now now2 (Except.ok (content, headers))).2.2 = true := by
  refine ⟨?_, ?_, ?_⟩ <;> simp [HttpFetcher.fetch, hhit]

/-- C3: with caching enabled, `fetch` answers from the store without a
network request exactly when a live entry (`now - timestamp < ttl`) exists
for the URL's key; a live hit returns the stored payload and leaves the
store untouched; otherwise the network result is stored under the key, and
when the store is at capacity (`len >= max_cache_size`) exactly the first
entry with the smallest timestamp is removed beforehand. -/
theorem fetch_cache_contract (f : HttpFetcher) (url : String) (now now2 : ℚ)
    (net : Except String (String × List (String × String)))
    (hk : (f.cache.map Prod.fst).Nodup) :
    ((f.fetch url true now now2 net).2.2 = false ↔
      ∃ p ∈ f.cache, p.1 = f.keyOf url ∧ now - p.2.timestamp < f.cache_ttl) ∧
    (∀ p ∈ f.cache, p.1 = f.keyOf url → now - p.2.timestamp < f.cache_ttl →
      (f.fetch url true now now2 net).1 = Except.ok p.2.content ∧
      (f.fetch url true now now2 net).2.1.cache = f.cache) ∧
    (∀ content headers, net = Except.ok (content, headers) →
      (¬ ∃ p ∈ f.cache, p.1 = f.keyOf url ∧ now - p.2.timestamp < f.cache_ttl) →
      (f.fetch url true now now2 net).1 = Except.ok content ∧
      dictFind (f.fetch url true now now2 net).2.1.cache (f.keyOf url) =
        some ⟨content, now2, headers⟩ ∧
      (f.cache.length < f.max_cache_size →
        ∀ q ∈ f.cache, q.1 ≠ f.keyOf url →
          q ∈ (f.fetch url true now now2 net).2.1.cache) ∧
      (f.max_cache_size ≤ f.cache.length → f.cache ≠ [] →
        ∃ victim ∈ f.cache,
          (∀ q ∈ f.cache, victim.2.timestamp ≤ q.2.timestamp) ∧
          victim ∉ HttpFetcher.evict_oldest f.cache ∧
          (∀ q ∈ f.cache, q ≠ victim → q ∈ HttpFetcher.evict_oldest f.cache) ∧
          (HttpFetcher.evict_oldest f.cache).length + 1 = f.cache.length ∧
          (f.fetch url true now now2 net).2.1.cache =
            dictInsert (HttpFetcher.evict_oldest f.cache) (f.keyOf url)
              ⟨content, now2, headers⟩)) := by
  have hmiss_hit : (¬ ∃ p ∈ f.cache, p.1 = f.keyOf url ∧ now - p.2.timestamp < f.cache_ttl) →
      f.cacheHit url now = none := by
    intro hno
    cases hd : dictFind f.cache (f.keyOf url) with
    | none => simp [HttpFetcher.cacheHit, hd]
    | some e =>
      have hmem := mem_of_dictFind_eq_some hd
      cases hv : f.is_cache_valid now e with
      | true =>
        exact absurd ⟨(f.keyOf url, e), hmem, rfl,
          by simpa [HttpFetcher.is_cache_valid] using hv⟩ hno
      | false => simp [HttpFetcher.cacheHit, hd, hv]
  have hhit_some : ∀ p ∈ f.cache, p.1 = f.keyOf url → now - p.2.timestamp < f.cache_ttl →
      f.cacheHit url now = some p.2.content := by
    intro p hp hkey hv
    have hd : dictFind f.cache (f.keyOf url) = some p.2 :=
      hkey ▸ dictFind_eq_some_of_mem hk hp
    simp [HttpFetcher.cacheHit, hd, HttpFetcher.is_cache_valid, hv]
  refine ⟨?_, ?_, ?_⟩
  · by_cases hlive : ∃ p ∈ f.cache, p.1 = f.keyOf url ∧ now - p.2.timestamp < f.cache_ttl
    · obtain ⟨p, hp, hkey, hv⟩ := hlive
      rw [fetch_eval_hit f url now now2 net p.2.content (hhit_some p hp hkey hv)]
      exact iff_of_true rfl ⟨p, hp, hkey, hv⟩
    · cases net with
      | error e =>
        rw [fetch_eval_miss_error f url now now2 e (hmiss_hit hlive)]
        exact iff_of_false (by simp) hlive
      | ok pr =>
        obtain ⟨content, headers⟩ := pr
        rw [(fetch_eval_miss_ok f url now now2 content headers (hmiss_hit hlive)).2.2]
        exact iff_of_false (by simp) hlive
  · intro p hp hkey hv
    rw [fetch_eval_hit f url now now2 net p.2.content (hhit_some p hp hkey hv)]
    exact ⟨rfl, rfl⟩
  · rintro content headers hnet hlive
    subst hnet
    obtain ⟨hres, hcache, -⟩ := fetch_eval_miss_ok f url now now2 content headers
      (hmiss_hit hlive)
    refine ⟨hres, ?_, ?_, ?_⟩
    · rw [hcache]
      exact dictFind_dictInsert_self _ _ _
    · intro hlt q hq hne
      rw [hcache, if_neg (not_le.mpr hlt)]
      exact mem_dictInsert_of_ne hq hne
    · intro hge hnonempty
      obtain ⟨victim, hvm, hvmin⟩ :=
        exists_min_by (fun p : String × CacheEntry => p.2.timestamp) f.cache hnonempty
      have hsome : (f.cache.find?
          (fun p => decide (∀ q ∈ f.cache, p.2.timestamp ≤ q.2.timestamp))).isSome := by
        rw [List.find?_isSome]
        exact ⟨victim, hvm, by simpa using hvmin⟩
      obtain ⟨w, hw⟩ := Option.isSome_iff_exists.mp hsome
      have hwp : ∀ q ∈ f.cache, w.2.timestamp ≤ q.2.timestamp := by
        simpa using List.find?_some hw
      have hwmem : w ∈ f.cache := List.mem_of_find?_eq_some hw
      have hevict : HttpFetcher.evict_oldest f.cache =
          f.cache.eraseP fun q => decide (q.1 = w.1) := by
        rw [HttpFetcher.evict_oldest, hw]
      obtain ⟨a', l₁, l₂, hl₁, ha', hsplit, herase⟩ :=
        List.exists_of_eraseP (p := fun q => decide (q.1 = w.1)) hwmem (by simp)
      have ha'w : a' = w :=
        keys_nodup_unique hk
          (hsplit ▸ List.mem_append_right l₁ (List.mem_cons_self a' l₂)) hwmem
          (by simpa using ha')
      rw [ha'w] at hsplit
      refine ⟨w, hwmem, hwp, ?_, ?_, ?_, ?_⟩
      · rw [hevict, herase]
        intro hmem2
        rcases List.mem_append.mp hmem2 with h1 | h1
        · exact hl₁ w h1 (by simp)
        · have hnd : ((l₁ ++ w :: l₂).map Prod.fst).Nodup := hsplit ▸ hk
          simp only [List.map_append, List.map_cons, List.nodup_append] at hnd
          exact (List.nodup_cons.mp hnd.2.1).1 (List.mem_map.mpr ⟨w, h1, rfl⟩)
      · intro q hq hqw
        rw [hevict, List.mem_eraseP_of_neg]
        · exact hq
        · simp only [decide_eq_true_eq]
          intro hqk
          exact hqw (keys_nodup_unique hk hq hwmem hqk)
      · rw [hevict, List.length_eraseP_of_mem hwmem (by simp)]
        have hlen : f.cache.length ≠ 0 := fun h0 => hnonempty (List.length_eq_zero.mp h0)
        omega
      · rw [hcache, if_pos hge]

/-- Witness for `fetch_cache_contract`: a live entry is served from the
store. -/
theorem fetch_cache_contract_witness :
    (HttpFetcher.fetch ⟨10, 2, fun u => u, [("a", ⟨"A", 0, []⟩), ("b", ⟨"B", 5, []⟩)]⟩
      "b" true 6 7 (Except.error "down")).1 = Except.ok "B" ∧
    (HttpFetcher.fetch ⟨10, 2, fun u => u, [("a", ⟨"A", 0, []⟩), ("b", ⟨"B", 5, []⟩)]⟩
      "b" true 6 7 (Except.error "down")).2.1.cache =
      [("a", ⟨"A", 0, []⟩), ("b", ⟨"B", 5, []⟩)] := by
  have h := fetch_cache_contract
    ⟨10, 2, fun u => u, [("a", ⟨"A", 0, []⟩), ("b", ⟨"B", 5, []⟩)]⟩
    "b" 6 7 (Except.error "down") (by decide)
  exact h.2.1 ("b", ⟨"B", 5, []⟩) (by simp) rfl (by norm_num)

/-- C7: on a cache miss (no live entry) with caching enabled, a network
failure propagates to the caller (the single `client.get` attempt is not
retried) and the cache store is exactly as before the call. -/
theorem fetch_error_frame (f : HttpFetcher) (url : String) (now now2 : ℚ) (e : String)
    (hmiss : ¬ ∃ p ∈ f.cache, p.1 = f.keyOf url ∧ now - p.2.timestamp < f.cache_ttl) :
    (f.fetch url true now now2 (Except.error e)).1 = Except.error e ∧
    (f.fetch url true now now2 (Except.error e)).2.1.cache = f.cache ∧
    (f.fetch url true now now2 (Except.error e)).2.2 = true := by
  have hhit : f.cacheHit url now = none := by
    cases hd : dictFind f.cache (f.keyOf url) with
    | none => simp [HttpFetcher.cacheHit, hd]
    | some en =>
      have hmem : (f.keyOf url, en) ∈ f.cache := mem_of_dictFind_eq_some hd
      cases hv : f.is_cache_valid now en with
      | true =>
        exact absurd ⟨(f.keyOf url, en), hmem, rfl,
          by simpa [HttpFetcher.is_cache_valid] using hv⟩ hmiss
      | false => simp [HttpFetcher.cacheHit, hd, hv]
  rw [fetch_eval_miss_error f url now now2 e hhit]
  exact ⟨rfl, rfl, rfl⟩

/-- Witness for `fetch_error_frame` on a one-entry cache missing the
requested URL. -/
theorem fetch_error_frame_witness :
    (HttpFetcher.fetch ⟨10, 2, fun u => u, [("a", ⟨"A", 0, []⟩)]⟩ "b" true 100 101
      (Except.error "boom")).1 = Except.error "boom" ∧
    (HttpFetcher.fetch ⟨10, 2, fun u => u, [("a", ⟨"A", 0, []⟩)]⟩ "b" true 100 101
      (Except.error "boom")).2.1.cache = [("a", ⟨"A", 0, []⟩)] := by
  have h := fetch_error_frame ⟨10, 2, fun u => u, [("a", ⟨"A", 0, []⟩)]⟩ "b" 100 101 "boom"
    (by rintro ⟨p, hp, hkey, -⟩; simp at hp; rw [hp] at hkey; simp at hkey)
  exact ⟨h.1, h.2.1⟩

/-- Embedding of the `PageData` dataclass of `indexer.py` (the `section`
field is renamed `section_` because `section` is a Lean keyword). -/
structure PageData where
  url : String
  title : String
  section_ : String
  language : String
  content : String
  content_preview : String
deriving DecidableEq

/-- Environment of one crawl, abstracting the subclass hooks and the
network: `should_crawl` is the adapter's admission predicate;
`fetchPage url` is `none` when the `try` block raises before any page or
link is produced (network error, `raise_for_status`, parse failure), and
`some (page?, links)` when `client.get`/parse succeed, where `page?` is
`_extract_page`'s result and `links` is `extract_links`' result. -/
structure CrawlSite where
  should_crawl : String → Bool
  fetchPage : String → Option (Option PageData × List String)

/-- Mutable state of a `BaseIndexBuilder` during a crawl (`visited`,
`pages`) together with a ghost log of every performed fetch and the
recursion depth it happened at, used to state the crawl-bound
invariants. -/
structure CrawlState where
  visited : List String
  pages : List PageData
  fetchLog : List (String × Nat)
deriving DecidableEq

/-- Embedding of `BaseIndexBuilder._crawl`.  `fuel` is a structural
termination measure: callers maintain `fuel + depth = max_depth + 1`, so
the `depth > max_depth` guard always fires before fuel can reach zero and
the fuel-exhausted branch is unreachable in real executions. -/
def crawlA (site : CrawlSite) (max_depth max_pages : Nat) :
    Nat → String → Nat → CrawlState → CrawlState
  | fuel, url, depth, st =>
    if max_depth < depth then st
    else if url ∈ st.visited then st
    else if max_pages ≤ st.pages.length then st
    else if !site.should_crawl url then st
    else
      match fuel with
      | 0 => { st with visited := url :: st.visited }
      | fuel' + 1 =>
        let st2 : CrawlState :=
          { st with
            visited := url :: st.visited
            fetchLog := st.fetchLog ++ [(url, depth)] }
        match site.fetchPage url with
        | none => st2
        | some (pageOpt, links) =>
          let st3 : CrawlState :=
            match pageOpt with
            | some page =>
              if 100 < page.content.length then { st2 with pages := st2.pages ++ [page] }
              else st2
            | none => st2
          links.foldl (fun s l => crawlA site max_depth max_pages fuel' l (depth + 1) s) st3

/-- One seed's `await self._crawl(start_url, depth=0)` with enough fuel. -/
def crawlFromSeed (site : CrawlSite) (max_depth max_pages : Nat) (url : String)
    (st : CrawlState) : CrawlState :=
  crawlA site max_depth max_pages (max_depth + 1) url 0 st

/-- Embedding of the seed loop of `BaseIndexBuilder.build`: crawl each
start URL in turn, stopping once `len(self.pages) >= self.max_pages`. -/
def buildCrawl (site : CrawlSite) (max_depth max_pages : Nat) :
    List String → CrawlState → CrawlState
  | [], st => st
  | seed :: rest, st =>
    let st' := crawlFromSeed site max_depth max_pages seed st
    if max_pages ≤ st'.pages.length then st'
    else buildCrawl site max_depth max_pages rest st'

/-- State of a freshly constructed builder. -/
def initCrawlState : CrawlState :=
  ⟨[], [], []⟩

/-- Crawl-bound invariant: fetched URLs are pairwise distinct and all
marked visited, the page count respects the cap, and every fetch happened
at an admissible depth for a URL admitted by `should_crawl`. -/
def CrawlInv (site : CrawlSite) (max_depth max_pages : Nat) (st : CrawlState) : Prop :=
  (st.fetchLog.map Prod.fst).Nodup ∧
  (∀ e ∈ st.fetchLog, e.1 ∈ st.visited) ∧
  st.pages.length ≤ max_pages ∧
  (∀ e ∈ st.fetchLog, e.2 ≤ max_depth ∧ site.should_crawl e.1 = true)

lemma crawlA_inv (site : CrawlSite) (md mp : Nat) :
    ∀ (fuel : Nat) (url : String) (depth : Nat) (st : CrawlState),
      CrawlInv site md mp st → CrawlInv site md mp (crawlA site md mp fuel url depth st) := by
  intro fuel
  induction fuel with
  | zero =>
    intro url depth st hinv
    obtain ⟨h1, h2, h3, h4⟩ := hinv
    simp only [crawlA]
    split
    · exact ⟨h1, h2, h3, h4⟩
    · split
      · exact ⟨h1, h2, h3, h4⟩
      · split
        · exact ⟨h1, h2, h3, h4⟩
        · split
          · exact ⟨h1, h2, h3, h4⟩
          · exact ⟨h1, fun e he => List.mem_cons_of_mem url (h2 e he), h3, h4⟩
  | succ fuel' ih =>
    intro url depth st hinv
    obtain ⟨h1, h2, h3, h4⟩ := hinv
    simp only [crawlA]
    split
    · exact ⟨h1, h2, h3, h4⟩
    rename_i hdepth
    split
    · exact ⟨h1, h2, h3, h4⟩
    rename_i hvisited
    split
    · exact ⟨h1, h2, h3, h4⟩
    rename_i hpages
    split
    · exact ⟨h1, h2, h3, h4⟩
    rename_i hadmit
    have hurl_new : url ∉ st.fetchLog.map Prod.fst := by
      intro hmem
      obtain ⟨e, he, heq⟩ := List.mem_map.mp hmem
      exact hvisited (heq ▸ h2 e he)
    have hinv2 : CrawlInv site md mp
        { st with
          visited := url :: st.visited
          fetchLog := st.fetchLog ++ [(url, depth)] } := by
      refine ⟨?_, ?_, h3, ?_⟩
      · rw [List.map_append]
        simp only [List.map_cons, List.map_nil]
        rw [List.nodup_append]
        exact ⟨h1, List.nodup_singleton url, by simpa using hurl_new⟩
      · intro e he
        rcases List.mem_append.mp he with he1 | he1
        · exact List.mem_cons_of_mem url (h2 e he1)
        · simp only [List.mem_singleton] at he1
          rw [he1]
          exact List.mem_cons_self url st.visited
      · intro e he
        rcases List.mem_append.mp he with he1 | he1
        · exact h4 e he1
        · simp only [List.mem_singleton] at he1
          rw [he1]
          refine ⟨Nat.le_of_not_lt hdepth, ?_⟩
          simpa using hadmit
    have hfold : ∀ (ls : List String) (s : CrawlState), CrawlInv site md mp s →
        CrawlInv site md mp
          (ls.foldl (fun s l => crawlA site md mp fuel' l (depth + 1) s) s) := by
      intro ls
      induction ls with
      | nil => intro s hs; simpa using hs
      | cons l rest ihl =>
        intro s hs
        simp only [List.foldl_cons]
        exact ihl _ (ih l (depth + 1) s hs)
    cases hfp : site.fetchPage url with
    | none => exact hinv2
    | some pr =>
      obtain ⟨pageOpt, links⟩ := pr
      cases pageOpt with
      | none => exact hfold links _ hinv2
      | some page =>
        dsimp only
        split
        · refine hfold links _ ⟨hinv2.1, hinv2.2.1, ?_, hinv2.2.2.2⟩
          have hplt : st.pages.length < mp := Nat.lt_of_not_le hpages
          simp only [List.length_append, List.length_singleton]
          omega
        · exact hfold links _ hinv2

lemma buildCrawl_inv (site : CrawlSite) (md mp : Nat) :
    ∀ (seeds : List String) (st : CrawlState),
      CrawlInv site md mp st → CrawlInv site md mp (buildCrawl site md mp seeds st) := by
  intro seeds
  induction seeds with
  | nil => intro st h; simpa [buildCrawl] using h
  | cons seed rest ih =>
    intro st h
    simp only [buildCrawl]
    have h' := crawlA_inv site md mp (md + 1) seed 0 st h
    split
    · exact h'
    · exact ih _ h'

/-- C4: for every crawl environment, depth bound, page cap and seed list:
no URL is fetched twice, every fetch happens at depth at most `max_depth`
and only for URLs admitted by `should_crawl`, and the number of retained
pages never exceeds `max_pages`. -/
theorem crawl_bounds (site : CrawlSite) (max_depth max_pages : Nat) (seeds : List String) :
    (((buildCrawl site max_depth max_pages seeds initCrawlState).fetchLog.map
      Prod.fst).Nodup) ∧
    (∀ e ∈ (buildCrawl site max_depth max_pages seeds initCrawlState).fetchLog,
      e.2 ≤ max_depth ∧ site.should_crawl e.1 = true) ∧
    (buildCrawl site max_depth max_pages seeds initCrawlState).pages.length ≤ max_pages := by
  have h := buildCrawl_inv site max_depth max_pages seeds initCrawlState
    ⟨List.nodup_nil, by simp [initCrawlState], by simp [initCrawlState], by simp [initCrawlState]⟩
  exact ⟨h.1, h.2.2.2, h.2.2.1⟩

/-- Witness for `crawl_bounds` on a two-page site with a rejected URL. -/
theorem crawl_bounds_witness :
    (("b", 1) : String × Nat).2 ≤ 2 ∧
    (CrawlSite.mk (fun u => !(u == "bad"))
      (fun u => if u = "a" then some (none, ["b", "bad"]) else none)).should_crawl
        (("b", 1) : String × Nat).1 = true := by
  exact (crawl_bounds
    (CrawlSite.mk (fun u => !(u == "bad"))
      (fun u => if u = "a" then some (none, ["b", "bad"]) else none)) 2 5 ["a"]).2.1
    ("b", 1) (by decide)

/-- Index of the first occurrence of `pat` in a character list (Python
`s.find(pat)` / the cut point of `s.split(pat)[0]`), `none` if absent. -/
def findOcc (pat : List Char) : List Char → Option Nat
  | [] => if pat.isEmpty then some 0 else none
  | c :: rest =>
    if pat.isPrefixOf (c :: rest) then some 0
    else (findOcc pat rest).map (· + 1)

/-- Index of the last occurrence of `pat` (Python `s.rfind(pat)` as an
`Option` instead of `-1`). -/
def rfindOcc (pat : List Char) : List Char → Option Nat
  | [] => if pat.isEmpty then some 0 else none
  | c :: rest =>
    match rfindOcc pat rest with
    | some i => some (i + 1)
    | none => if pat.isPrefixOf (c :: rest) then some 0 else none

/-- One iteration of the separator loop in `HtmlCleaner.extract_title`:
`if sep in title: title = title.split(sep)[0].strip()`. -/
def cutSepStep (cur : List Char) (sep : List Char) : List Char :=
  match findOcc sep cur with
  | some i => pyStrip (cur.take i)
  | none => cur

/-- The separator list of `HtmlCleaner.extract_title`, in loop order. -/
def TITLE_SEPS : List (List Char) :=
  [" — ".data, " - ".data, " | ".data, " · ".data]

/-- Abstraction of a parsed HTML document for title extraction:
`titleText` is `soup.title.string` when a `<title>` tag with a string
exists; `h1Text` is the stripped text of the first `h1` when one exists.
(The BeautifulSoup parser itself is an external library.) -/
structure HtmlDoc where
  titleText : Option String
  h1Text : Option String
deriving DecidableEq

/-- Embedding of `HtmlCleaner.extract_title`: a truthy (nonempty) declared
title is stripped and then cut at each separator in turn; otherwise the
first `h1` text, otherwise absent. -/
def HtmlCleaner.extract_title (d : HtmlDoc) : Option String :=
  match d.titleText with
  | some s =>
    if s ≠ "" then some (String.mk (TITLE_SEPS.foldl cutSepStep (pyStrip s.data)))
    else d.h1Text
  | none => d.h1Text

/-- Characters of the `[—\-|·]` class in `BaseIndexBuilder.extract_title`. -/
def sepChar (c : Char) : Bool :=
  c = '—' || c = '-' || c = '|' || c = '·'

/-- Whether `.*$` (no `re.DOTALL`, no `re.MULTILINE`) can complete a match
from this suffix: `.` cannot cross a newline and `$` matches only at the
end or before a single final newline, so the suffix may contain no newline
except possibly as its last character. -/
def tailNlOk (l : List Char) : Bool :=
  !(l.dropLast.contains '\n')

/-- Start index of the leftmost separator character at which
`\s*[—\-|·].*$` can match: the first `sepChar` whose suffix admits `.*$`.
(The `\s*` prefix of the leftmost match only extends the removed region
left over the whitespace run immediately before this character.) -/
def findFeasibleSep : List Char → Option Nat
  | [] => none
  | c :: rest =>
    if sepChar c && tailNlOk rest then some 0
    else (findFeasibleSep rest).map (· + 1)

/-- Drop the trailing whitespace run (the `\s*` absorbed by the match). -/
def dropTrailingWs (l : List Char) : List Char :=
  (l.reverse.dropWhile pyIsSpace).reverse

/-- Embedding of `re.sub(r"\s*[—\-|·].*$", "", title)` from
`BaseIndexBuilder.extract_title`.  When `$` matches before a final
newline, that newline survives the substitution but is removed by the
`.strip()` that immediately follows in the source, so the embedding fuses
the two. -/
def indexerCleanTitle (cs : List Char) : List Char :=
  match findFeasibleSep cs with
  | none => cs
  | some q => dropTrailingWs (cs.take q)

/-- Embedding of `BaseIndexBuilder.extract_title`: a truthy declared title
is stripped, regex-cut at the first feasible separator character, and
stripped again; otherwise the first `h1` text, otherwise absent. -/
def BaseIndexBuilder.extract_title (d : HtmlDoc) : Option String :=
  match d.titleText with
  | some s =>
    if s ≠ "" then some (String.mk (pyStrip (indexerCleanTitle (pyStrip s.data))))
    else d.h1Text
  | none => d.h1Text

lemma foldl_cutSepStep_id (seps : List (List Char)) (cs : List Char)
    (h : ∀ sep ∈ seps, findOcc sep cs = none) : seps.foldl cutSepStep cs = cs := by
  induction seps with
  | nil => rfl
  | cons sep rest ih =>
    simp only [List.foldl_cons]
    rw [show cutSepStep cs sep = cs from by simp [cutSepStep, h sep (by simp)]]
    exact ih fun sp hsp => h sp (List.mem_cons_of_mem _ hsp)

lemma findFeasibleSep_eq_none {cs : List Char} (h : ∀ c ∈ cs, sepChar c = false) :
    findFeasibleSep cs = none := by
  induction cs with
  | nil => rfl
  | cons c rest ih =>
    simp only [findFeasibleSep]
    rw [h c (List.mem_cons_self c rest), ih fun x hx => h x (List.mem_cons_of_mem c hx)]
    simp

/-- Proving the claim false on the code: `BaseIndexBuilder.extract_title`
cuts `Motor-Controller Guide` down to `Motor` although the title contains
none of the four listed site-name separators, so it is not returned
whole. -/
theorem extract_title_counterexample :
    BaseIndexBuilder.extract_title ⟨some "Motor-Controller Guide", none⟩ = some "Motor" ∧
    BaseIndexBuilder.extract_title ⟨some "Motor-Controller Guide", none⟩ ≠
      some "Motor-Controller Guide" ∧
    (∀ sep ∈ TITLE_SEPS, findOcc sep "Motor-Controller Guide".data = none) := by
  refine ⟨by decide, by decide, by decide⟩

/-- C8 (amended): both extractors prefer a truthy declared title and fall
back to the first top-level heading, else report absence.
`HtmlCleaner.extract_title` cuts the stripped title at each separator
`" — "`, `" - "`, `" | "`, `" · "` in turn, so a stripped title containing
none of them is returned whole; `BaseIndexBuilder.extract_title` instead
cuts before the first occurrence of any single character `—`, `-`, `|`,
`·`, so a stripped title free of those characters is returned whole but a
bare hyphen already truncates (`Motor-Controller Guide` becomes
`Motor`). -/
theorem extract_title_amended (s : String) (h : Option String) :
    (HtmlCleaner.extract_title ⟨none, h⟩ = h ∧
     BaseIndexBuilder.extract_title ⟨none, h⟩ = h ∧
     HtmlCleaner.extract_title ⟨some "", h⟩ = h ∧
     BaseIndexBuilder.extract_title ⟨some "", h⟩ = h) ∧
    (pyStrip s.data = s.data → s ≠ "" →
      (∀ sep ∈ TITLE_SEPS, findOcc sep s.data = none) →
      HtmlCleaner.extract_title ⟨some s, h⟩ = some s) ∧
    (pyStrip s.data = s.data → s ≠ "" →
      (∀ c ∈ s.data, sepChar c = false) →
      BaseIndexBuilder.extract_title ⟨some s, h⟩ = some s) ∧
    (HtmlCleaner.extract_title ⟨some "Motor-Controller Guide", none⟩ =
      some "Motor-Controller Guide" ∧
     BaseIndexBuilder.extract_title ⟨some "Motor-Controller Guide", none⟩ =
      some "Motor") := by
  refine ⟨⟨rfl, rfl, rfl, rfl⟩, ?_, ?_, by decide, by decide⟩
  · intro hstrip hne hsep
    simp only [HtmlCleaner.extract_title, if_pos hne]
    rw [hstrip, foldl_cutSepStep_id TITLE_SEPS s.data hsep]
  · intro hstrip hne hsep
    simp only [BaseIndexBuilder.extract_title, if_pos hne]
    rw [hstrip, show indexerCleanTitle s.data = s.data from by
      simp [indexerCleanTitle, findFeasibleSep_eq_none hsep], hstrip]

/-- Witness for `extract_title_amended` on a separator-free title. -/
theorem extract_title_amended_witness :
    HtmlCleaner.extract_title ⟨some "Robot Guide", none⟩ = some "Robot Guide" ∧
    BaseIndexBuilder.extract_title ⟨some "Robot Guide", none⟩ = some "Robot Guide" := by
  exact ⟨(extract_title_amended "Robot Guide" none).2.1 (by decide) (by decide) (by decide),
    (extract_title_amended "Robot Guide" none).2.2.1 (by decide) (by decide) (by decide)⟩

/-- Sentence separators tried in order by `HtmlCleaner.create_preview`. -/
def SENTENCE_SEPS : List (List Char) :=
  [". ".data, ".\n".data, "! ".data, "? ".data]

/-- The separator loop of `HtmlCleaner.create_preview`: return the last
occurrence of the first separator whose last occurrence lies past half of
`max_length`; a separator that is absent or does not qualify falls through
to the next one.  Python's `last_sep > max_length * 0.5` compares an
integer with an exactly representable float, so it is the rational
comparison `2 * last_sep > max_length`. -/
def seqSentenceCut (truncated : List Char) (max_length : Nat) :
    List (List Char) → Option Nat
  | [] => none
  | sep :: more =>
    match rfindOcc sep truncated with
    | some i =>
      if max_length < 2 * i then some i else seqSentenceCut truncated max_length more
    | none => seqSentenceCut truncated max_length more

/-- Embedding of `HtmlCleaner.create_preview`.  The word-boundary guard
`last_space > max_length * 0.7` is embedded as `7 * max_length < 10 * j`;
Python evaluates `max_length * 0.7` in binary floating point, which agrees
with the exact rational product at the default (and only in-repo) value
`max_length = 300`, where `300 * 0.7 == 210.0` exactly. -/
def HtmlCleaner.create_preview (text : String) (max_length : Nat) : String :=
  if text.length ≤ max_length then text
  else
    let truncated := text.data.take max_length
    match seqSentenceCut truncated max_length SENTENCE_SEPS with
    | some i => String.mk (pyStrip (truncated.take (i + 1)))
    | none =>
      match rfindOcc [' '] truncated with
      | some j =>
        if 7 * max_length < 10 * j then String.mk (pyStrip (truncated.take j)) ++ "..."
        else String.mk (pyStrip truncated) ++ "..."
      | none => String.mk (pyStrip truncated) ++ "..."

/-- Embedding of `BaseIndexBuilder.create_preview`: like the HTML
cleaner's version but with `". "` as the only sentence separator and no
stripping; the threshold comparisons are embedded as for
`HtmlCleaner.create_preview`. -/
def BaseIndexBuilder.create_preview (content : String) (max_length : Nat) : String :=
  if content.length ≤ max_length then content
  else
    let preview := content.data.take max_length
    let wordCut : String :=
      match rfindOcc [' '] preview with
      | some j =>
        if 7 * max_length < 10 * j then String.mk (preview.take j) ++ "..."
        else String.mk preview ++ "..."
      | none => String.mk preview ++ "..."
    match rfindOcc ". ".data preview with
    | some i => if max_length < 2 * i then String.mk (preview.take (i + 1)) else wordCut
    | none => wordCut

lemma pyStrip_length_le (l : List Char) : (pyStrip l).length ≤ l.length := by
  calc (pyStrip l).length
      = ((l.dropWhile pyIsSpace).reverse.dropWhile pyIsSpace).length := List.length_reverse _
    _ ≤ (l.dropWhile pyIsSpace).reverse.length :=
        List.Sublist.length_le (List.dropWhile_sublist _)
    _ = (l.dropWhile pyIsSpace).length := List.length_reverse _
    _ ≤ l.length := List.Sublist.length_le (List.dropWhile_sublist _)

/-- Proving the claim false on the code: with `max_len = 20` the text
`abcdefghijk. mn! pqrst` is cut at the `". "` tried first, although the
rightmost sentence-ending punctuation past half the cutoff is the `"! "`
at index 15, so the claimed cut `abcdefghijk. mn!` is not produced. -/
theorem create_preview_counterexample :
    HtmlCleaner.create_preview "abcdefghijk. mn! pqrst" 20 = "abcdefghijk." ∧
    HtmlCleaner.create_preview "abcdefghijk. mn! pqrst" 20 ≠ "abcdefghijk. mn!" ∧
    rfindOcc "! ".data ("abcdefghijk. mn! pqrst".data.take 20) = some 15 ∧
    20 < 2 * 15 := by
  refine ⟨by decide, by decide, by decide, by decide⟩

/-- C9 (amended): `create_preview` returns the text unchanged when its
length is at most `max_len`; otherwise it truncates to `max_len` and the
HTML cleaner cuts at the last occurrence of the *first* separator among
`". "`, `".\n"`, `"! "`, `"? "` (tried in that order) whose last
occurrence lies past 50% of `max_len`, stripping the cut; the index
builder considers only `". "`.  Failing that, both cut at the last
whitespace past 70% of `max_len` with an ellipsis, else hard-truncate with
an ellipsis; every truncated preview has length at most `max_len + 3`. -/
theorem create_preview_amended (t : String) (m : Nat) :
    (t.length ≤ m →
      HtmlCleaner.create_preview t m = t ∧ BaseIndexBuilder.create_preview t m = t) ∧
    (m < t.length →
      (HtmlCleaner.create_preview t m).length ≤ m + 3 ∧
      (BaseIndexBuilder.create_preview t m).length ≤ m + 3) ∧
    (HtmlCleaner.create_preview "abcdefghijk. mn! pqrst" 20 = "abcdefghijk." ∧
     BaseIndexBuilder.create_preview "abcdefghijk. mn! pqrst" 20 = "abcdefghijk." ∧
     HtmlCleaner.create_preview "abcdefghijklmno! pqrstu" 20 = "abcdefghijklmno!" ∧
     BaseIndexBuilder.create_preview "abcdefghijklmno! pqrstu" 20 =
       "abcdefghijklmno!...") := by
  refine ⟨?_, ?_, by decide, by decide, by decide, by decide⟩
  · intro hle
    constructor
    · simp [HtmlCleaner.create_preview, hle]
    · simp [BaseIndexBuilder.create_preview, hle]
  · intro hm
    have htr : (t.data.take m).length ≤ m := List.length_take_le m t.data
    have hdots : ("..." : String).length = 3 := rfl
    constructor
    · simp only [HtmlCleaner.create_preview, if_neg (not_le.mpr hm)]
      cases h1 : seqSentenceCut (t.data.take m) m SENTENCE_SEPS with
      | some i =>
        dsimp only
        have hb : (String.mk (pyStrip ((t.data.take m).take (i + 1)))).length ≤ m :=
          le_trans (pyStrip_length_le _)
            (le_trans (List.Sublist.length_le (List.take_sublist _ _)) htr)
        omega
      | none =>
        dsimp only
        cases h2 : rfindOcc [' '] (t.data.take m) with
        | some j =>
          dsimp only
          split
          · rw [String.length_append]
            have hb : (String.mk (pyStrip ((t.data.take m).take j))).length ≤ m :=
              le_trans (pyStrip_length_le _)
                (le_trans (List.Sublist.length_le (List.take_sublist _ _)) htr)
            omega
          · rw [String.length_append]
            have hb : (String.mk (pyStrip (t.data.take m))).length ≤ m :=
              le_trans (pyStrip_length_le _) htr
            omega
        | none =>
          dsimp only
          rw [String.length_append]
          have hb : (String.mk (pyStrip (t.data.take m))).length ≤ m :=
            le_trans (pyStrip_length_le _) htr
          omega
    · simp only [BaseIndexBuilder.create_preview, if_neg (not_le.mpr hm)]
      have hword : (match rfindOcc [' '] (t.data.take m) with
          | some j =>
            if 7 * m < 10 * j then String.mk ((t.data.take m).take j) ++ "..."
            else String.mk (t.data.take m) ++ "..."
          | none => String.mk (t.data.take m) ++ "...").length ≤ m + 3 := by
        cases h2 : rfindOcc [' '] (t.data.take m) with
        | some j =>
          dsimp only
          split
          · rw [String.length_append]
            have hb : (String.mk ((t.data.take m).take j)).length ≤ m :=
              le_trans (List.Sublist.length_le (List.take_sublist _ _)) htr
            omega
          · rw [String.length_append]
            have hb : (String.mk (t.data.take m)).length ≤ m := htr
            omega
        | none =>
          dsimp only
          rw [String.length_append]
          have hb : (String.mk (t.data.take m)).length ≤ m := htr
          omega
      cases h1 : rfindOcc ". ".data (t.data.take m) with
      | some i =>
        dsimp only
        split
        · have hb : (String.mk ((t.data.take m).take (i + 1))).length ≤ m :=
            le_trans (List.Sublist.length_le (List.take_sublist _ _)) htr
          omega
        · exact hword
      | none =>
        dsimp only
        exact hword

/-- Witness for `create_preview_amended`: a short text is unchanged and a
long one stays within `max_len + 3`. -/
theorem create_preview_amended_witness :
    HtmlCleaner.create_preview "hello" 10 = "hello" ∧
    (HtmlCleaner.create_preview "abcdefghijk. mn! pqrst" 20).length ≤ 20 + 3 := by
  exact ⟨((create_preview_amended "hello" 10).1 (by decide)).1,
    ((create_preview_amended "abcdefghijk. mn! pqrst" 20).2.1 (by decide)).1⟩
